import Mathlib

/-!
# ZoMBI-Discrete: shallow embedding of `zombi.py`

This file embeds the optimization driver `ZoMBI_Discrete` (constructor,
`activate_zombi`, `optimize`) as executable Lean definitions and proves
properties of the embedded code.

Modelling conventions:
* Machine floats (point coordinates and labels) are modelled by `Int`; every
  property proved here is about ordering, counting and selection, which the
  driver performs identically for any linearly ordered label type.
* The Gaussian-process surrogate and the acquisition functions (`LCB`, `EI`,
  `LCB_ada`, `EI_abrupt`, from `acquisitions.py`) are external collaborators;
  the driver only ever consumes the per-point score vector they return.  They
  are modelled by an arbitrary score oracle that receives everything the real
  call site passes (the step index, the scored point set, the surrogate's
  training data, and the member state holding the running-best trace).  The
  wall-clock compute trace (`time.time()` bookkeeping) and the progress bar
  are pure reporting side effects and are not modelled.
* `numpy` array operations are translated pointwise:
  `np.argsort` (stable tie-break by position), `np.unique(..., return_index=True)`,
  `np.minimum.accumulate`, negative-extent slicing `[-m:]` (which for `m = 0`
  is the full slice), and the numpy `in` operator
  (`p in X` is `(X == p).any()`, i.e. *any shared coordinate*, not row
  equality).
* Fallible code returns `Except PyErr`.
-/

namespace ZoMBIDiscrete

/-- A point of the discrete search space: one row of `dataset_X`. -/
abbrev Point := List Int

/-- The error taxonomy of the driver: `ValueError` from the constructor,
`OutOfPointsException` from `activate_zombi`, and `TypeError` (raised by the
standard library when handed an argument of the wrong type). -/
inductive PyErr
  | valueError
  | outOfPoints
  | typeError
deriving DecidableEq, Repr

/-- Per-ensemble-member mutable state of `optimize`: the observation history
`X_i`/`fX_i`, the running best trace `fX_min_i`, the previous pick `idx_old`,
the bound trajectories `bound_l_i`/`bound_u_i`, and a flag recording that every
zoom-forward pick so far selected exactly one point (batch size 1). -/
structure MemberState where
  X : List Point
  fX : List Int
  fXmin : List Int
  idxOld : List Nat
  okPicks : Bool
  boundL : List Point
  boundU : List Point
deriving DecidableEq, Repr

/-- Abstract acquisition-score oracle standing for `self.BO(...)` applied to a
fitted GP: arguments are the step index `n`, the scored point set, the GP
training inputs and labels, and the member state (carrying the running-best
trace the real call site also passes). -/
abbrev AcqOracle := Nat → List Point → List Point → List Int → MemberState → List Int

/-- Abstract space-filling selector standing for `discrete_LHS(X, n,
return_indices=True)` from `utils.py`. -/
abbrev Selector := List Point → Nat → List Nat

/-- Validated driver configuration (the fields of `ZoMBI_Discrete` the control
flow reads; acquisition hyperparameters are absorbed into the oracle). -/
structure Config where
  dsX : List Point
  dsfX : List Int
  nregular : Nat
  activations : Nat
  memory : Nat
  forward : Nat
  ensemble : Nat
deriving Repr

/-! ## numpy primitives -/

/-- The stable sort key of `np.argsort` over a score vector: compare values,
break ties by position. -/
def keyLE (v : List Int) (i j : Nat) : Prop :=
  v.getD i 0 < v.getD j 0 ∨ (v.getD i 0 = v.getD j 0 ∧ i ≤ j)

instance (v : List Int) : DecidableRel (keyLE v) := fun i j => by
  unfold keyLE; infer_instance

instance (v : List Int) : IsTotal Nat (keyLE v) where
  total i j := by
    unfold keyLE
    rcases lt_trichotomy (v.getD i 0) (v.getD j 0) with h | h | h
    · exact Or.inl (Or.inl h)
    · rcases Nat.le_total i j with hij | hij
      · exact Or.inl (Or.inr ⟨h, hij⟩)
      · exact Or.inr (Or.inr ⟨h.symm, hij⟩)
    · exact Or.inr (Or.inl h)

instance (v : List Int) : IsTrans Nat (keyLE v) where
  trans i j k hij hjk := by
    unfold keyLE at *
    rcases hij with h₁ | ⟨e₁, l₁⟩
    · rcases hjk with h₂ | ⟨e₂, _⟩
      · exact Or.inl (h₁.trans h₂)
      · exact Or.inl (e₂ ▸ h₁)
    · rcases hjk with h₂ | ⟨e₂, l₂⟩
      · exact Or.inl (e₁ ▸ h₂)
      · exact Or.inr ⟨e₁.trans e₂, l₁.trans l₂⟩

/-- `np.argsort(v)`: the positions `0, …, len v - 1` sorted by score (stable). -/
def argsortPy (v : List Int) : List Nat :=
  List.insertionSort (keyLE v) (List.range v.length)

/-- numpy membership `p in X` for a 2-D array `X`: `(X == p).any()`, true iff
some row of `X` agrees with `p` in at least one coordinate. -/
def numpyIn (p : Point) (X : List Point) : Bool :=
  X.any fun q => (q.zip p).any fun ab => ab.1 == ab.2

/-- Tail of `np.minimum.accumulate` given the running minimum so far. -/
def cumMinAux (m : Int) : List Int → List Int
  | [] => []
  | x :: xs => min m x :: cumMinAux (min m x) xs

/-- `np.minimum.accumulate`. -/
def cumMin : List Int → List Int
  | [] => []
  | x :: xs => x :: cumMinAux x xs

/-- Negation `-1 * l` of a label vector. -/
def negL (l : List Int) : List Int := l.map fun x => -x

/-- Insert a value into a strictly sorted list, dropping it if present
(helper for `np.unique`). -/
def insInt (x : Int) : List Int → List Int
  | [] => [x]
  | y :: ys => if x < y then x :: y :: ys else if x = y then y :: ys else y :: insInt x ys

/-- The sorted distinct values of a list: the first component of
`np.unique(l, return_index=True)`. -/
def sortedUnique (l : List Int) : List Int := l.foldr insInt []

/-- Index of the first occurrence of `v` in `l` (`np.unique`'s `return_index`). -/
def firstIdx (v : Int) : List Int → Nat
  | [] => 0
  | x :: xs => if x = v then 0 else firstIdx v xs + 1

/-- `np.unique(l, return_index=True)[1]`: the first-occurrence index of each
distinct value, ordered by value ascending. -/
def uniqueFirstIndices (l : List Int) : List Nat :=
  (sortedUnique l).map fun v => firstIdx v l

/-- Python negative-extent slice `l[-m:]`.  For `m = 0` this is `l[0:]`, the
whole list — exactly as in Python. -/
def takeLastPy (m : Nat) (l : List α) : List α :=
  if m = 0 then l else l.drop (l.length - m)

/-! ## driver primitives -/

/-- `mem = np.unique(self.fX_i, return_index=True)[1][-self.memory:]`
(zombi.py line 105): the memory window of a zoom activation. -/
def memoryWindow (memory : Nat) (fX : List Int) : List Nat :=
  takeLastPy memory (uniqueFirstIndices fX)

/-- Coordinatewise minimum of two points. -/
def vecMin (p q : Point) : Point := (p.zip q).map fun ab => min ab.1 ab.2

/-- Coordinatewise maximum of two points. -/
def vecMax (p q : Point) : Point := (p.zip q).map fun ab => max ab.1 ab.2

/-- `np.min(ps, axis=0)`. -/
def colMin : List Point → Point
  | [] => []
  | p :: ps => ps.foldl vecMin p

/-- `np.max(ps, axis=0)`. -/
def colMax : List Point → Point
  | [] => []
  | p :: ps => ps.foldl vecMax p

/-- Modelled from the spec: `find_indices_within_bounds` lives in `utils.py`,
which is not part of the sources; per the spec's Candidate Pool Filter
contract it returns the indices of the dataset points lying inside the box,
with inclusive per-dimension membership. -/
def find_indices_within_bounds (X : List Point) (lb ub : Point) : List Nat :=
  (List.range X.length).filter fun i =>
    let p := X.getD i []
    ((p.zip lb).all fun ab => ab.2 ≤ ab.1) && ((p.zip ub).all fun ab => ab.1 ≤ ab.2)

/-- The regular-phase index selection (zombi.py lines 231–235):
`idx = np.argsort(ac_value)[:1]`, and if it equals the previous pick, retry
with `j = 1` giving the slice `np.argsort(ac_value)[2:3]`. -/
def regularPick (scores : List Int) (idxOld : List Nat) : List Nat :=
  let srt := argsortPy scores
  let idx := srt.take 1
  if idx = idxOld then (srt.drop 2).take 1 else idx

/-- One regular-phase iteration (zombi.py lines 202–242): score the current
history `X_new` with the acquisition oracle, pick by `regularPick`, append
`dataset_X[idx]` / `dataset_fX[idx]`, and remember the pick in `idx_old`. -/
def regularStep (cfg : Config) (ac : AcqOracle) (n : Nat) (s : MemberState) : MemberState :=
  let scores := ac n s.X s.X s.fX s
  let idx := regularPick scores s.idxOld
  { s with
    X := s.X ++ idx.map fun i => cfg.dsX.getD i []
    fX := s.fX ++ idx.map fun i => cfg.dsfX.getD i 0
    idxOld := idx }

/-- Local state of the zoom-forward loop: `X_bounded`/`fX_bounded`, plus a
flag recording that each pick so far selected exactly one point. -/
structure LocalState where
  X : List Point
  fX : List Int
  ok : Bool
deriving DecidableEq, Repr

/-- One forward iteration of a zoom activation (zombi.py lines 139–177): score
the filtered pool, keep the best-scoring pool positions whose point is not
`in` the local set (numpy membership), take one, and append that pool point
together with `self.dataset_fX[idx]` — the label of the *full-dataset* row at
the pool-relative position `idx`, exactly as the source does. -/
def forwardStep (cfg : Config) (pool : List Point) (ac : AcqOracle) (ctx : MemberState)
    (n : Nat) (t : LocalState) : LocalState :=
  let scores := ac n pool t.X t.fX ctx
  let idx := ((argsortPy scores).filter fun i => !numpyIn (pool.getD i []) t.X).take 1
  { X := t.X ++ idx.map fun i => pool.getD i []
    fX := t.fX ++ idx.map fun i => cfg.dsfX.getD i 0
    ok := t.ok && decide (idx.length = 1) }

/-- What a successful `activate_zombi` call returns: `X_bounded_full`,
`fX_bounded_full`, `fX_bounded_min`, plus the pick flag. -/
structure ActRes where
  X : List Point
  fX : List Int
  fXmin : List Int
  ok : Bool
deriving DecidableEq, Repr

/-- `activate_zombi` (zombi.py lines 96–182).  Computes the memory window and
the new bounding box, appends the box to the bound trajectory (overwriting it
on activation 0), filters the dataset to the box, raises
`OutOfPointsException` when fewer than `memory + forward * batch` points
remain (batch = 1), otherwise seeds `memory` LHS points from the bounded pool
and runs the forward loop.  The bound trajectory is returned in either case,
because the source mutates `self.bound_l_i`/`self.bound_u_i` before raising. -/
def activate_zombi (cfg : Config) (lhs : Selector) (ac : AcqOracle) (a : Nat)
    (s : MemberState) : (List Point × List Point) × Except PyErr ActRes :=
  let mem := memoryWindow cfg.memory s.fX
  let memPts := mem.map fun i => s.X.getD i []
  let minVector := colMin memPts
  let maxVector := colMax memPts
  let boundL := if a = 0 then [minVector] else s.boundL ++ [minVector]
  let boundU := if a = 0 then [maxVector] else s.boundU ++ [maxVector]
  let idxWithin := find_indices_within_bounds cfg.dsX minVector maxVector
  if idxWithin.length < cfg.memory + cfg.forward * 1 then
    ((boundL, boundU), .error .outOfPoints)
  else
    let pool := idxWithin.map fun i => cfg.dsX.getD i []
    let poolfX := idxWithin.map fun i => cfg.dsfX.getD i 0
    let idxLhs := lhs pool cfg.memory
    let X0 := idxLhs.map fun i => pool.getD i []
    let fX0 := idxLhs.map fun i => poolfX.getD i 0
    let fin := (List.range cfg.forward).foldl
      (fun t n => forwardStep cfg pool ac s n t) ⟨X0, fX0, true⟩
    ((boundL, boundU), .ok ⟨fin.X, fin.fX, cumMin (negL fin.fX), fin.ok⟩)

/-- The `limit` argument of `traceback.format_exc`: `None`, an `int`, or —
as at zombi.py line 256, where the caught exception is passed positionally —
an arbitrary non-integer object. -/
inductive PyLimit
  | noneVal
  | intVal (n : Int)
  | excObject
deriving DecidableEq, Repr

/-- Models CPython's `traceback.StackSummary` frame-limit handling, which
`format_exc(limit)` reaches unconditionally: a `None` limit keeps every frame
and an `int` limit slices, but any other object fails on the comparison
`limit >= 0` with a `TypeError` (`'>=' not supported between instances of
'OutOfPointsException' and 'int'`). -/
def stackLimitSlice : PyLimit → Except PyErr Unit
  | .noneVal => .ok ()
  | .intVal _ => .ok ()
  | .excObject => .error .typeError

/-- `traceback.format_exc(limit)`. -/
def format_exc (limit : PyLimit) : Except PyErr String :=
  match stackLimitSlice limit with
  | .ok _ => .ok "Traceback (most recent call last): ..."
  | .error e => .error e

/-- Append a successful activation's results to the member state
(zombi.py lines 249–254): `vstack`/`hstack` of history, labels and
running-best trace, and adoption of the new bound trajectory. -/
def spliceMember (s : MemberState) (b : List Point × List Point) (r : ActRes) : MemberState :=
  { X := s.X ++ r.X
    fX := s.fX ++ r.fX
    fXmin := s.fXmin ++ r.fXmin
    idxOld := s.idxOld
    okPicks := s.okPicks && r.ok
    boundL := b.1
    boundU := b.2 }

/-- The activation loop of `optimize` (zombi.py lines 247–257): run
activations `a, a+1, …` while `rem` remain; on success splice the results in,
on `OutOfPointsException` execute the handler `print(format_exc(e))` — whose
`format_exc(e)` call raises `TypeError`, so the `break` on the fall-through
path is never reached and the error propagates. -/
def actLoop (cfg : Config) (lhs : Selector) (ac : AcqOracle) :
    Nat → Nat → MemberState → Except PyErr MemberState
  | _, 0, s => .ok s
  | a, rem + 1, s =>
    match activate_zombi cfg lhs ac a s with
    | (b, .ok r) => actLoop cfg lhs ac (a + 1) rem (spliceMember s b r)
    | (b, .error _) =>
      match format_exc .excObject with
      | .ok _ => .ok { s with boundL := b.1, boundU := b.2 }
      | .error err => .error err

/-- The state of an ensemble member entering the regular phase
(zombi.py lines 193–200): history reset to the seed points, `idx_old`
initialized to `np.array([0])`. -/
def initMember (seeds : List Point) (sfX : List Int) : MemberState :=
  { X := seeds, fX := sfX, fXmin := [], idxOld := [0], okPicks := true
    boundL := [], boundU := [] }

/-- The regular-BO loop (zombi.py lines 202–242). -/
def regularLoop (cfg : Config) (ac : AcqOracle) (s : MemberState) : MemberState :=
  (List.range cfg.nregular).foldl (fun t n => regularStep cfg ac n t) s

/-- `self.fX_min_i = np.minimum.accumulate(-1 * self.fX_i)`
(zombi.py line 245): initialize the running best trace from the history. -/
def setTraceFromHistory (s : MemberState) : MemberState :=
  { s with fXmin := cumMin (negL s.fX) }

/-- `self.fX_min_i = np.minimum.accumulate(self.fX_min_i)` (zombi.py
line 258): the global cumulative-minimum pass re-applied after splicing. -/
def finalizeTrace (s : MemberState) : MemberState :=
  { s with fXmin := cumMin s.fXmin }

/-- One ensemble member of `optimize` (zombi.py lines 193–258): regular phase,
initialization of `fX_min_i = np.minimum.accumulate(-1 * fX_i)`, the
activation loop, then the global re-accumulation
`fX_min_i = np.minimum.accumulate(fX_min_i)` of line 258. -/
def runMember (cfg : Config) (lhs : Selector) (ac : AcqOracle)
    (seeds : List Point) (sfX : List Int) : Except PyErr MemberState :=
  (actLoop cfg lhs ac 0 cfg.activations
    (setTraceFromHistory (regularLoop cfg ac (initMember seeds sfX)))).map finalizeTrace

/-- `optimize` (zombi.py lines 184–273): run every ensemble member from the
same seed data and collect the members' results in order.  An uncaught error
in any member aborts the whole run, as in Python. -/
def optimize (cfg : Config) (lhs : Selector) (ac : AcqOracle)
    (seeds : List Point) (sfX : List Int) : Except PyErr (List MemberState) :=
  (List.range cfg.ensemble).foldlM
    (fun acc _ => (runMember cfg lhs ac seeds sfX).map fun s => acc ++ [s]) []

/-- The acquisition-strategy argument of the constructor: one of the four
supported function objects, or anything else. -/
inductive BOChoice
  | LCB
  | EI
  | LCB_ada
  | EI_abrupt
  | other
deriving DecidableEq, Repr

/-- `ZoMBI_Discrete.__init__` (zombi.py lines 24–94): raise `ValueError`
unless `BO` is one of the four supported acquisition objects, then raise
`ValueError` unless `forward > 1`; otherwise record the parameters (the
remaining Python-`int` counts are stored unvalidated; the GP construction and
the float hyperparameters always succeed and are absorbed by the oracle). -/
def zombiInit (bo : BOChoice) (dsX : List Point) (dsfX : List Int)
    (nregular activations memory forward ensemble : Int) : Except PyErr Config :=
  if ¬(bo = .LCB ∨ bo = .EI ∨ bo = .LCB_ada ∨ bo = .EI_abrupt) then
    .error .valueError
  else if ¬(forward > 1) then
    .error .valueError
  else
    .ok ⟨dsX, dsfX, nregular.toNat, activations.toNat, memory.toNat, forward.toNat,
      ensemble.toNat⟩

/-- `Except.isOk` specialized to the driver's errors. -/
def exOk {α : Type} : Except PyErr α → Bool
  | .ok _ => true
  | .error _ => false

/-- The member's final running-best trace, `[]` when the run aborted. -/
def memberTrace : Except PyErr MemberState → List Int
  | .ok s => s.fXmin
  | .error _ => []

/-- `true` iff the member run completed and every zoom-forward pick selected
exactly one point. -/
def runOk : Except PyErr MemberState → Bool
  | .ok s => s.okPicks
  | .error _ => false

/-! ## Concrete instances used by witnesses and counterexamples -/

/-- A deterministic Space-Filling Selector instance, the first `n` pool
indices.  Modelled from the spec: `discrete_LHS` lives in `utils.py`, which
is not part of the sources; its contract only requires a deterministic
down-selection of `count` indices into the pool. -/
def lhsD : Selector := fun pool n => (List.range pool.length).take n

/-- A concrete acquisition oracle whose scores equal the position index, so
`np.argsort` of its output is the identity permutation. -/
def acAsc : AcqOracle := fun _ scored _ _ _ => (List.range scored.length).map Int.ofNat

/-- The spec's end-to-end scenario: 50 one-dimensional grid points with
label lying on a line, `nregular = 5`, `memory = 5`, `forward = 3`,
`activations = 2`, `ensemble = 1`. -/
def cfgScen : Config :=
  { dsX := (List.range 50).map fun i => [Int.ofNat i]
    dsfX := (List.range 50).map Int.ofNat
    nregular := 5, activations := 2, memory := 5, forward := 3, ensemble := 1 }

/-- Three seed points for the end-to-end scenario. -/
def seedsScen : List Point := [[10], [20], [30]]

/-- Seed labels for the end-to-end scenario. -/
def sfXScen : List Int := [10, 20, 30]

/-- An exhaustion scenario: the memory window of the two seed points spans
the box `[0, 10]`, which contains exactly `memory + forward - 1 = 3` dataset
points. -/
def cfgEx : Config :=
  { dsX := [[0], [5], [10], [20]], dsfX := [1, 2, 3, 4]
    nregular := 0, activations := 1, memory := 2, forward := 2, ensemble := 1 }

/-- The exhaustion scenario run with two ensemble members. -/
def cfgEx2 : Config := { cfgEx with ensemble := 2 }

/-- Seed points of the exhaustion scenario. -/
def seedsEx : List Point := [[0], [10]]

/-- Seed labels of the exhaustion scenario. -/
def sfXEx : List Int := [1, 3]

/-- The member state entering the activation loop in the exhaustion scenario
(`nregular = 0`, so the regular phase leaves the seeds untouched). -/
def sEx : MemberState :=
  { X := seedsEx, fX := sfXEx, fXmin := cumMin (negL sfXEx), idxOld := [0], okPicks := true
    boundL := [], boundU := [] }

/-- Label-mismatch scenario: the memory window spans `[5, 8]`, selecting
dataset rows 1–4, so pool positions differ from dataset positions. -/
def cfgMis : Config :=
  { dsX := [[0], [5], [6], [7], [8]], dsfX := [10, 20, 30, 40, 50]
    nregular := 0, activations := 1, memory := 2, forward := 2, ensemble := 1 }

/-- The member state entering the activation in the label-mismatch
scenario. -/
def sMis : MemberState :=
  { X := [[5], [8]], fX := [20, 50], fXmin := cumMin (negL [20, 50]), idxOld := [0]
    okPicks := true, boundL := [], boundU := [] }

/-- A two-dimensional pool exposing numpy membership: `[0, 1]` shares its
first coordinate with the local point `[0, 0]` without being equal to it. -/
def poolTwoD : List Point := [[0, 1], [5, 5]]

/-- Configuration carrying the two-dimensional pool as its dataset. -/
def cfgTwoD : Config :=
  { dsX := poolTwoD, dsfX := [100, 200], nregular := 0, activations := 0, memory := 1
    forward := 2, ensemble := 1 }

/-- Local forward-loop state holding the single point `[0, 0]`. -/
def tTwoD : LocalState := { X := [[0, 0]], fX := [0], ok := true }

/-- An arbitrary member-state context for a single forward step. -/
def ctxTwoD : MemberState := initMember [] []

/-- A small four-point dataset for the regular-phase fallback instances. -/
def cfgSmall : Config :=
  { dsX := [[0], [1], [2], [3]], dsfX := [5, 6, 7, 8], nregular := 1, activations := 0
    memory := 1, forward := 2, ensemble := 1 }

/-- A constant acquisition oracle over four candidates. -/
def acConst : AcqOracle := fun _ _ _ _ _ => [0, 1, 2, 3]

/-- A one-seed member state (its `idxOld` is the initial `np.array([0])`). -/
def sSmall : MemberState := initMember [[9]] [9]

/-! ## Properties of the numpy primitives -/

theorem argsortPy_perm (v : List Int) : List.Perm (argsortPy v) (List.range v.length) :=
  List.perm_insertionSort _ _

theorem argsortPy_length (v : List Int) : (argsortPy v).length = v.length :=
  (argsortPy_perm v).length_eq.trans (List.length_range _)

theorem argsortPy_sorted (v : List Int) : (argsortPy v).Sorted (keyLE v) :=
  List.sorted_insertionSort _ _

theorem argsortPy_nodup (v : List Int) : (argsortPy v).Nodup :=
  (argsortPy_perm v).nodup_iff.mpr (List.nodup_range _)

theorem argsortPy_mem {v : List Int} {i : Nat} (h : i ∈ argsortPy v) : i < v.length := by
  have := (argsortPy_perm v).mem_iff.mp h
  simpa using this

/-- On a score vector without ties, `np.argsort` lists positions in strictly
increasing score order. -/
theorem argsortPy_pairwise_lt {v : List Int} (hv : v.Nodup) :
    (argsortPy v).Pairwise fun i j => v.getD i 0 < v.getD j 0 := by
  have hs : (argsortPy v).Pairwise (keyLE v) := argsortPy_sorted v
  have hnd : (argsortPy v).Pairwise (· ≠ ·) := argsortPy_nodup v
  rw [List.pairwise_iff_get] at hs hnd ⊢
  intro i j hij
  have hkey := hs i j hij
  have hne := hnd i j hij
  have hi : (argsortPy v).get i < v.length := argsortPy_mem (List.get_mem _ _ _)
  have hj : (argsortPy v).get j < v.length := argsortPy_mem (List.get_mem _ _ _)
  rcases hkey with h | ⟨heq, _⟩
  · exact h
  · exfalso
    apply hne
    have hg : v.get ⟨_, hi⟩ = v.get ⟨_, hj⟩ := by
      rw [← List.getD_eq_get v 0 hi, ← List.getD_eq_get v 0 hj]; exact heq
    exact Fin.mk_eq_mk.mp (hv.get_inj_iff.mp hg)

/-- In a list of positions with strictly increasing scores, exactly `k`
members score strictly below the member at position `k`. -/
theorem countP_lt_sorted (v : List Int) :
    ∀ (s : List Nat) (k : Nat),
      s.Pairwise (fun i j => v.getD i 0 < v.getD j 0) → k < s.length →
      s.countP (fun j => decide (v.getD j 0 < v.getD (s.getD k 0) 0)) = k
  | [], k, _, hk => absurd hk (by simp)
  | x :: xs, 0, hp, _ => by
    simp only [List.getD_cons_zero]
    have hxs : xs.countP (fun j => decide (v.getD j 0 < v.getD x 0)) = 0 := by
      rw [List.countP_eq_zero]
      intro a ha
      have h := (List.pairwise_cons.mp hp).1 a ha
      simp only [decide_eq_true_eq]
      omega
    rw [List.countP_cons, hxs, if_neg (by simp)]
  | x :: xs, k + 1, hp, hk => by
    have hlen : k < xs.length := by simpa using hk
    have hmem : xs.getD k 0 ∈ xs := by
      rw [List.getD_eq_get xs 0 hlen]; exact List.get_mem _ _ _
    have hx : v.getD x 0 < v.getD (xs.getD k 0) 0 := (List.pairwise_cons.mp hp).1 _ hmem
    rw [List.getD_cons_succ, List.countP_cons,
      countP_lt_sorted v xs k (List.pairwise_cons.mp hp).2 hlen,
      if_pos (decide_eq_true hx)]

/-- For tie-free scores, the position at rank `k` of `np.argsort` has exactly
`k` positions scoring strictly below it. -/
theorem countBelow_argsort (v : List Int) (hv : v.Nodup) (k : Nat) (hk : k < v.length) :
    ((List.range v.length).filter fun j =>
        decide (v.getD j 0 < v.getD ((argsortPy v).getD k 0) 0)).length = k := by
  rw [← List.countP_eq_length_filter]
  exact (List.Perm.countP_eq _ (argsortPy_perm v).symm).trans
    (countP_lt_sorted v (argsortPy v) k (argsortPy_pairwise_lt hv)
      (by rw [argsortPy_length]; exact hk))

theorem take_one_nat (l : List Nat) (h : 1 ≤ l.length) : l.take 1 = [l.getD 0 0] := by
  match l with
  | [] => simp at h
  | a :: t => rfl

theorem drop_two_take_one_nat (l : List Nat) (h : 3 ≤ l.length) :
    (l.drop 2).take 1 = [l.getD 2 0] := by
  match l with
  | [] => simp at h
  | [a] => simp at h
  | [a, b] => simp at h
  | a :: b :: c :: t => rfl

theorem cumMinAux_pairwise (m : Int) (l : List Int) :
    (cumMinAux m l).Pairwise (fun a b => b ≤ a) ∧ ∀ x ∈ cumMinAux m l, x ≤ m := by
  induction l generalizing m with
  | nil => simp [cumMinAux]
  | cons x xs ih =>
    obtain ⟨hp, hb⟩ := ih (min m x)
    constructor
    · rw [cumMinAux, List.pairwise_cons]
      exact ⟨hb, hp⟩
    · intro y hy
      rw [cumMinAux] at hy
      rcases List.mem_cons.mp hy with h | h
      · exact h ▸ min_le_left _ _
      · exact (hb y h).trans (min_le_left _ _)

/-- The output of `np.minimum.accumulate` is non-increasing at every index. -/
theorem cumMin_pairwise (l : List Int) : (cumMin l).Pairwise fun a b => b ≤ a := by
  cases l with
  | nil => simp [cumMin]
  | cons x xs =>
    rw [cumMin, List.pairwise_cons]
    exact ⟨(cumMinAux_pairwise x xs).2, (cumMinAux_pairwise x xs).1⟩

theorem mem_insInt (x a : Int) : ∀ (l : List Int), a ∈ insInt x l ↔ a = x ∨ a ∈ l
  | [] => by simp [insInt]
  | y :: ys => by
    rw [insInt]
    split
    · simp [List.mem_cons]
    · split
      · rename_i h1 h2
        subst h2
        simp only [List.mem_cons]
        tauto
      · simp only [List.mem_cons, mem_insInt x a ys]
        tauto

theorem pairwise_insInt (x : Int) :
    ∀ (l : List Int), l.Pairwise (· < ·) → (insInt x l).Pairwise (· < ·)
  | [], _ => by simp [insInt]
  | y :: ys, hp => by
    obtain ⟨hy, hys⟩ := List.pairwise_cons.mp hp
    rw [insInt]
    split
    · rename_i hlt
      rw [List.pairwise_cons]
      refine ⟨?_, hp⟩
      intro b hb
      rcases List.mem_cons.mp hb with rfl | hb
      · exact hlt
      · exact hlt.trans (hy b hb)
    · split
      · exact hp
      · rename_i h1 h2
        rw [List.pairwise_cons]
        refine ⟨?_, pairwise_insInt x ys hys⟩
        intro b hb
        rcases (mem_insInt x b ys).mp hb with rfl | hb
        · omega
        · exact hy b hb

theorem length_insInt (x : Int) : ∀ (l : List Int), (insInt x l).length ≤ l.length + 1
  | [] => by simp [insInt]
  | y :: ys => by
    rw [insInt]
    split
    · simp
    · split
      · simp
      · have := length_insInt x ys
        simp only [List.length_cons]
        omega

theorem sortedUnique_pairwise (l : List Int) : (sortedUnique l).Pairwise (· < ·) := by
  induction l with
  | nil => simp [sortedUnique]
  | cons x xs ih => exact pairwise_insInt x _ ih

theorem mem_sortedUnique (a : Int) (l : List Int) : a ∈ sortedUnique l ↔ a ∈ l := by
  induction l with
  | nil => simp [sortedUnique]
  | cons x xs ih =>
    show a ∈ insInt x (sortedUnique xs) ↔ _
    rw [mem_insInt, ih, List.mem_cons]

theorem sortedUnique_length (l : List Int) : (sortedUnique l).length ≤ l.length := by
  induction l with
  | nil => simp [sortedUnique]
  | cons x xs ih =>
    have := length_insInt x (sortedUnique xs)
    show (insInt x (sortedUnique xs)).length ≤ _
    simp only [List.length_cons]
    omega

theorem firstIdx_spec (v : Int) :
    ∀ (l : List Int), v ∈ l → firstIdx v l < l.length ∧ l.getD (firstIdx v l) 0 = v
  | [], hv => absurd hv (List.not_mem_nil v)
  | x :: xs, hv => by
    rw [firstIdx]
    split
    · rename_i h
      exact ⟨Nat.succ_pos _, h⟩
    · rename_i h
      have hv' : v ∈ xs := by
        rcases List.mem_cons.mp hv with rfl | h2
        · exact absurd rfl h
        · exact h2
      obtain ⟨h1, h2⟩ := firstIdx_spec v xs hv'
      exact ⟨by simpa using Nat.succ_lt_succ h1, by simpa using h2⟩

/-- Reading the labels back along `np.unique`'s first-occurrence indices
recovers exactly the sorted distinct values. -/
theorem uniqueFirstIndices_labels (l : List Int) :
    (uniqueFirstIndices l).map (fun i => l.getD i 0) = sortedUnique l := by
  rw [uniqueFirstIndices, List.map_map]
  have h : ∀ v ∈ sortedUnique l,
      ((fun i => l.getD i 0) ∘ fun v => firstIdx v l) v = id v := fun v hv =>
    (firstIdx_spec v l ((mem_sortedUnique v l).mp hv)).2
  rw [List.map_congr_left h, List.map_id]

theorem uniqueFirstIndices_mem_lt (l : List Int) :
    ∀ i ∈ uniqueFirstIndices l, i < l.length := by
  intro i hi
  rw [uniqueFirstIndices, List.mem_map] at hi
  obtain ⟨v, hv, rfl⟩ := hi
  exact (firstIdx_spec v l ((mem_sortedUnique v l).mp hv)).1

theorem uniqueFirstIndices_length (l : List Int) :
    (uniqueFirstIndices l).length ≤ l.length := by
  rw [uniqueFirstIndices, List.length_map]
  exact sortedUnique_length l

/-! ## Properties of the memory window -/

theorem memoryWindow_eq_drop (m : Nat) (hm : 1 ≤ m) (fX : List Int) :
    memoryWindow m fX =
      (uniqueFirstIndices fX).drop ((uniqueFirstIndices fX).length - m) := by
  rw [memoryWindow, takeLastPy, if_neg (by omega)]

theorem memoryWindow_length (m : Nat) (hm : 1 ≤ m) (fX : List Int) :
    (memoryWindow m fX).length ≤ min m fX.length := by
  rw [memoryWindow_eq_drop m hm, List.length_drop]
  have h1 := uniqueFirstIndices_length fX
  omega

theorem memoryWindow_labels (m : Nat) (hm : 1 ≤ m) (fX : List Int) :
    (memoryWindow m fX).map (fun i => fX.getD i 0) =
      (sortedUnique fX).drop ((uniqueFirstIndices fX).length - m) := by
  rw [memoryWindow_eq_drop m hm, List.map_drop, uniqueFirstIndices_labels]

theorem memoryWindow_labels_pairwise (m : Nat) (hm : 1 ≤ m) (fX : List Int) :
    ((memoryWindow m fX).map (fun i => fX.getD i 0)).Pairwise (· < ·) := by
  rw [memoryWindow_labels m hm]
  exact List.Pairwise.sublist (List.drop_sublist _ _) (sortedUnique_pairwise fX)

theorem memoryWindow_mem_lt (m : Nat) (fX : List Int) :
    ∀ i ∈ memoryWindow m fX, i < fX.length := by
  intro i hi
  have hmem : i ∈ uniqueFirstIndices fX := by
    rw [memoryWindow, takeLastPy] at hi
    split at hi
    · exact hi
    · exact List.mem_of_mem_drop hi
  exact uniqueFirstIndices_mem_lt fX i hmem

/-- Every history label missing from the memory window's labels is strictly
below every label kept in the window: the window keeps the top tail. -/
theorem memoryWindow_top (m : Nat) (hm : 1 ≤ m) (fX : List Int) :
    ∀ j, j < fX.length →
      fX.getD j 0 ∉ (memoryWindow m fX).map (fun i => fX.getD i 0) →
      ∀ i ∈ memoryWindow m fX, fX.getD j 0 < fX.getD i 0 := by
  intro j hj hnot i hi
  have hjmem : fX.getD j 0 ∈ sortedUnique fX := by
    rw [mem_sortedUnique, List.getD_eq_get fX 0 hj]
    exact List.get_mem _ _ _
  have hpw : (sortedUnique fX).Pairwise (· < ·) := sortedUnique_pairwise fX
  have hlabels := memoryWindow_labels m hm fX
  have hnotdrop : fX.getD j 0 ∉
      (sortedUnique fX).drop ((uniqueFirstIndices fX).length - m) := by
    rw [← hlabels]; exact hnot
  have hintake : fX.getD j 0 ∈
      (sortedUnique fX).take ((uniqueFirstIndices fX).length - m) := by
    rcases List.mem_append.mp
        (by rw [List.take_append_drop]; exact hjmem :
          fX.getD j 0 ∈ (sortedUnique fX).take ((uniqueFirstIndices fX).length - m) ++
            (sortedUnique fX).drop ((uniqueFirstIndices fX).length - m)) with h | h
    · exact h
    · exact absurd h hnotdrop
  have hcross := (List.pairwise_append.mp
    (by rw [List.take_append_drop]; exact hpw :
      ((sortedUnique fX).take ((uniqueFirstIndices fX).length - m) ++
        (sortedUnique fX).drop ((uniqueFirstIndices fX).length - m)).Pairwise (· < ·))).2.2
  have hidrop : fX.getD i 0 ∈
      (sortedUnique fX).drop ((uniqueFirstIndices fX).length - m) := by
    rw [← hlabels]
    exact List.mem_map_of_mem _ hi
  exact hcross _ hintake _ hidrop

/-! ## Counting lemmas for the driver loops -/

theorem regularPick_length (scores : List Int) (idxOld : List Nat)
    (h : 3 ≤ scores.length) : (regularPick scores idxOld).length = 1 := by
  rw [regularPick]
  have hlen : (argsortPy scores).length = scores.length := argsortPy_length scores
  split
  · rw [List.length_take, List.length_drop]
    omega
  · rw [List.length_take]
    omega

theorem regularStep_length (cfg : Config) (ac : AcqOracle) (n : Nat) (s : MemberState)
    (hac : ∀ n sc fx ffx st, (ac n sc fx ffx st).length = sc.length)
    (h : 3 ≤ s.X.length) :
    (regularStep cfg ac n s).X.length = s.X.length + 1 := by
  simp only [regularStep, List.length_append, List.length_map]
  rw [regularPick_length _ _ (by rw [hac]; exact h)]

theorem regularFold_length (cfg : Config) (ac : AcqOracle)
    (hac : ∀ n sc fx ffx st, (ac n sc fx ffx st).length = sc.length) :
    ∀ (ns : List Nat) (s : MemberState), 3 ≤ s.X.length →
      ((ns.foldl (fun t n => regularStep cfg ac n t) s).X.length = s.X.length + ns.length)
  | [], s, _ => by simp
  | n :: ns, s, h => by
    rw [List.foldl_cons]
    have h1 := regularStep_length cfg ac n s hac h
    have h2 := regularFold_length cfg ac hac ns (regularStep cfg ac n s) (by omega)
    rw [h2, h1]
    simp only [List.length_cons]
    omega

theorem regularLoop_length (cfg : Config) (ac : AcqOracle) (s : MemberState)
    (hac : ∀ n sc fx ffx st, (ac n sc fx ffx st).length = sc.length)
    (h : 3 ≤ s.X.length) :
    (regularLoop cfg ac s).X.length = s.X.length + cfg.nregular := by
  rw [regularLoop, regularFold_length cfg ac hac (List.range cfg.nregular) s h,
    List.length_range]

theorem forwardStep_X (cfg : Config) (pool : List Point) (ac : AcqOracle)
    (ctx : MemberState) (n : Nat) (t : LocalState) :
    (forwardStep cfg pool ac ctx n t).X =
      t.X ++ (((argsortPy (ac n pool t.X t.fX ctx)).filter
        fun i => !numpyIn (pool.getD i []) t.X).take 1).map fun i => pool.getD i [] := rfl

theorem forwardStep_ok_eq (cfg : Config) (pool : List Point) (ac : AcqOracle)
    (ctx : MemberState) (n : Nat) (t : LocalState) :
    (forwardStep cfg pool ac ctx n t).ok =
      (t.ok && decide ((((argsortPy (ac n pool t.X t.fX ctx)).filter
        fun i => !numpyIn (pool.getD i []) t.X).take 1).length = 1)) := rfl

theorem forwardFold_length (cfg : Config) (pool : List Point) (ac : AcqOracle)
    (ctx : MemberState) :
    ∀ (ns : List Nat) (t : LocalState),
      ((ns.foldl (fun u n => forwardStep cfg pool ac ctx n u) t).ok = true) →
      t.ok = true ∧
        (ns.foldl (fun u n => forwardStep cfg pool ac ctx n u) t).X.length =
          t.X.length + ns.length
  | [], t, h => ⟨h, by simp⟩
  | n :: ns, t, h => by
    rw [List.foldl_cons] at h ⊢
    obtain ⟨h1, h2⟩ := forwardFold_length cfg pool ac ctx ns _ h
    rw [forwardStep_ok_eq, Bool.and_eq_true] at h1
    obtain ⟨hta, hpick⟩ := h1
    refine ⟨hta, ?_⟩
    rw [h2, forwardStep_X, List.length_append, List.length_map, of_decide_eq_true hpick]
    simp only [List.length_cons]
    omega

theorem spliceMember_okPicks (s : MemberState) (b : List Point × List Point) (r : ActRes) :
    (spliceMember s b r).okPicks = (s.okPicks && r.ok) := rfl

theorem spliceMember_X (s : MemberState) (b : List Point × List Point) (r : ActRes) :
    (spliceMember s b r).X = s.X ++ r.X := rfl

/-- A zoom activation that returns with every pick of size one has grown the
local point set to exactly `memory + forward` points. -/
theorem activate_ok_length (cfg : Config) (lhs : Selector) (ac : AcqOracle) (a : Nat)
    (s : MemberState)
    (hlhs : ∀ ps k, k ≤ ps.length → (lhs ps k).length = k)
    {b : List Point × List Point} {r : ActRes}
    (h : activate_zombi cfg lhs ac a s = (b, .ok r)) (hok : r.ok = true) :
    r.X.length = cfg.memory + cfg.forward := by
  simp only [activate_zombi] at h
  split at h
  · exact absurd (congrArg Prod.snd h) (by simp)
  · rename_i hge
    have h2 := congrArg Prod.snd h
    simp only at h2
    have h3 := Except.ok.inj h2
    subst h3
    obtain ⟨-, hL⟩ := forwardFold_length cfg _ ac s (List.range cfg.forward) _ hok
    rw [hL, List.length_range, List.length_map]
    have hpool : cfg.memory ≤ ((find_indices_within_bounds cfg.dsX
        (colMin ((memoryWindow cfg.memory s.fX).map fun i => s.X.getD i []))
        (colMax ((memoryWindow cfg.memory s.fX).map fun i => s.X.getD i []))).map
          fun i => cfg.dsX.getD i []).length := by
      rw [List.length_map]
      omega
    rw [hlhs _ _ hpool]

/-- Unrolling the activation loop: when the loop completes with all picks of
size one, each of the `rem` activations contributed `memory + forward`
history entries. -/
theorem actLoop_ok_length (cfg : Config) (lhs : Selector) (ac : AcqOracle)
    (hlhs : ∀ ps k, k ≤ ps.length → (lhs ps k).length = k) :
    ∀ (rem a : Nat) (s s' : MemberState),
      actLoop cfg lhs ac a rem s = .ok s' → s'.okPicks = true →
      s.okPicks = true ∧
        s'.X.length = s.X.length + rem * (cfg.memory + cfg.forward)
  | 0, a, s, s', h, hok => by
    simp only [actLoop] at h
    cases Except.ok.inj h
    exact ⟨hok, by simp⟩
  | rem + 1, a, s, s', h, hok => by
    simp only [actLoop] at h
    split at h
    · rename_i b r heq
      obtain ⟨hsp, hlen⟩ := actLoop_ok_length cfg lhs ac hlhs rem (a + 1) _ s' h hok
      rw [spliceMember_okPicks, Bool.and_eq_true] at hsp
      obtain ⟨hs1, hr⟩ := hsp
      have hR := activate_ok_length cfg lhs ac a s hlhs heq hr
      refine ⟨hs1, ?_⟩
      rw [hlen, spliceMember_X, List.length_append, hR, Nat.succ_mul]
      omega
    · rename_i b e heq
      simp [format_exc, stackLimitSlice] at h

theorem setTraceFromHistory_X (s : MemberState) : (setTraceFromHistory s).X = s.X := rfl

theorem setTraceFromHistory_okPicks (s : MemberState) :
    (setTraceFromHistory s).okPicks = s.okPicks := rfl

theorem finalizeTrace_X (s : MemberState) : (finalizeTrace s).X = s.X := rfl

theorem finalizeTrace_okPicks (s : MemberState) :
    (finalizeTrace s).okPicks = s.okPicks := rfl

/-- `runMember` unfolded (definitional). -/
theorem runMember_cases (cfg : Config) (lhs : Selector) (ac : AcqOracle)
    (seeds : List Point) (sfX : List Int) :
    runMember cfg lhs ac seeds sfX =
      (actLoop cfg lhs ac 0 cfg.activations
        (setTraceFromHistory (regularLoop cfg ac (initMember seeds sfX)))).map
        finalizeTrace := rfl

/-! ## Claims -/

/-- C7 (counterexample): with `memory = 0` the Python slice `[-0:]` keeps
*all* distinct-label indices, so on the one-point history `[5]` the memory
window has size 1, exceeding `min 0 1 = 0`; the claimed size bound fails. -/
theorem c7_memory_zero_counterexample :
    (memoryWindow 0 [5]).length = 1 ∧
      ¬((memoryWindow 0 [5]).length ≤ min 0 ([(5 : Int)] : List Int).length) := by
  decide

/-- C7 (amended: the characterization holds for `memory ≥ 1`; for
`memory = 0` the slice `[-0:]` keeps every distinct label):  at the start of
a zoom activation the Memory Window consists of indices of points of the
history with pairwise distinct labels, listed in ascending label order; its
size is at most `min memory |history|`; and every history label missing from
the window is strictly below every label in the window — the window keeps
the best `memory` unique-valued points. -/
theorem c7_memory_window (m : Nat) (fX : List Int) (hm : 1 ≤ m) :
    (memoryWindow m fX).length ≤ min m fX.length ∧
    ((memoryWindow m fX).map fun i => fX.getD i 0).Pairwise (· < ·) ∧
    (∀ i ∈ memoryWindow m fX, i < fX.length) ∧
    (∀ j, j < fX.length →
      fX.getD j 0 ∉ (memoryWindow m fX).map (fun i => fX.getD i 0) →
      ∀ i ∈ memoryWindow m fX, fX.getD j 0 < fX.getD i 0) :=
  ⟨memoryWindow_length m hm fX, memoryWindow_labels_pairwise m hm fX,
    memoryWindow_mem_lt m fX, memoryWindow_top m hm fX⟩

/-- C7 (witness): the amended characterization evaluated at `memory = 1`
over the history labels `[3, 5]` — the window is `[1]`, the index of the
label 5. -/
theorem c7_memory_window_witness :
    (memoryWindow 1 [3, 5]).length ≤ min 1 ([(3 : Int), 5] : List Int).length ∧
    ((memoryWindow 1 [3, 5]).map fun i => ([(3 : Int), 5] : List Int).getD i 0).Pairwise (· < ·) ∧
    (∀ i ∈ memoryWindow 1 [3, 5], i < ([(3 : Int), 5] : List Int).length) ∧
    (∀ j, j < ([(3 : Int), 5] : List Int).length →
      ([(3 : Int), 5] : List Int).getD j 0 ∉
        (memoryWindow 1 [3, 5]).map (fun i => ([(3 : Int), 5] : List Int).getD i 0) →
      ∀ i ∈ memoryWindow 1 [3, 5],
        ([(3 : Int), 5] : List Int).getD j 0 < ([(3 : Int), 5] : List Int).getD i 0) :=
  c7_memory_window 1 [3, 5] (by decide)

/-- C8: for every run and every ensemble member, the member's final running
best trace (`fX_min_i` after the global `np.minimum.accumulate` of line 258)
is non-increasing in its stored negated form at every index — each later
entry is ≤ every earlier entry; an aborted run contributes the empty trace. -/
theorem c8_trace_nonincreasing (cfg : Config) (lhs : Selector) (ac : AcqOracle)
    (seeds : List Point) (sfX : List Int) :
    (memberTrace (runMember cfg lhs ac seeds sfX)).Pairwise fun a b => b ≤ a := by
  rw [runMember_cases]
  cases actLoop cfg lhs ac 0 cfg.activations
      (setTraceFromHistory (regularLoop cfg ac (initMember seeds sfX))) with
  | error e => exact List.Pairwise.nil
  | ok s' => exact cumMin_pairwise s'.fXmin

/-- C9: the constructor raises `ValueError` exactly when the acquisition
strategy is not one of the four supported objects or `forward` is not
greater than 1, and a failure is always that `ValueError`; every other
combination of arguments succeeds. -/
theorem c9_constructor_validation (bo : BOChoice) (dsX : List Point) (dsfX : List Int)
    (nregular activations memory forward ensemble : Int) :
    ((exOk (zombiInit bo dsX dsfX nregular activations memory forward ensemble) = false) ↔
      (bo = BOChoice.other ∨ forward ≤ 1)) ∧
    (exOk (zombiInit bo dsX dsfX nregular activations memory forward ensemble) = false →
      zombiInit bo dsX dsfX nregular activations memory forward ensemble =
        .error PyErr.valueError) := by
  cases bo <;> by_cases hf : forward > 1 <;>
    simp [zombiInit, exOk, hf] <;> omega

/-- C9 (witness): an unsupported strategy fails, `forward = 0` fails with
`ValueError`, and a supported strategy with `forward = 2` succeeds. -/
theorem c9_constructor_validation_witness :
    exOk (zombiInit BOChoice.other [] [] 0 0 0 5 0) = false ∧
    zombiInit BOChoice.LCB [] [] 0 0 0 0 0 = .error PyErr.valueError ∧
    exOk (zombiInit BOChoice.EI [] [] 0 0 0 2 0) = true := by
  refine ⟨?_, ?_, ?_⟩
  · exact (c9_constructor_validation BOChoice.other [] [] 0 0 0 5 0).1.mpr (Or.inl rfl)
  · exact (c9_constructor_validation BOChoice.LCB [] [] 0 0 0 0 0).2
      ((c9_constructor_validation BOChoice.LCB [] [] 0 0 0 0 0).1.mpr (Or.inr (by decide)))
  · have h := (c9_constructor_validation BOChoice.EI [] [] 0 0 0 2 0).1
    cases hv : exOk (zombiInit BOChoice.EI [] [] 0 0 0 2 0) with
    | false => exact absurd (h.mp hv) (by decide)
    | true => rfl

/-- C10: each ensemble member's first regular iteration starts with
`idx_old = np.array([0])` before any pick exists; hence whenever the
best-scoring index of that first iteration is 0 (and there are at least
three tie-free scores), the dedup fallback fires and the driver selects the
rank-2 index of the sort — a strictly worse-scoring candidate than the true
best at index 0. -/
theorem c10_first_iteration_dedup (seeds : List Point) (sfX : List Int) (scores : List Int)
    (hnd : scores.Nodup) (hlen : 3 ≤ scores.length)
    (hbest : (argsortPy scores).getD 0 0 = 0) :
    (initMember seeds sfX).idxOld = [0] ∧
    regularPick scores (initMember seeds sfX).idxOld = [(argsortPy scores).getD 2 0] ∧
    (argsortPy scores).getD 2 0 ≠ 0 ∧
    scores.getD 0 0 < scores.getD ((argsortPy scores).getD 2 0) 0 := by
  have hslen : (argsortPy scores).length = scores.length := argsortPy_length scores
  have htake : (argsortPy scores).take 1 = [0] := by
    rw [take_one_nat _ (by omega), hbest]
  refine ⟨rfl, ?_, ?_, ?_⟩
  · rw [regularPick]
    show (if (argsortPy scores).take 1 = [0] then _ else _) = _
    rw [if_pos htake, drop_two_take_one_nat _ (by omega)]
  · have hnodup := argsortPy_nodup scores
    have h02 : (argsortPy scores).get ⟨0, by omega⟩ ≠ (argsortPy scores).get ⟨2, by omega⟩ := by
      intro hceq
      have h := hnodup.get_inj_iff.mp hceq
      simp at h
    intro hc
    exact h02 (by
      rw [← List.getD_eq_get (argsortPy scores) 0, ← List.getD_eq_get (argsortPy scores) 0,
        hbest, hc])
  · have hpw := argsortPy_pairwise_lt hnd
    rw [List.pairwise_iff_get] at hpw
    have h := hpw ⟨0, by omega⟩ ⟨2, by omega⟩ (by simp)
    rw [← List.getD_eq_get (argsortPy scores) 0, ← List.getD_eq_get (argsortPy scores) 0,
      hbest] at h
    exact h

/-- C10 (witness): with scores `[0, 1, 2, 3]` the best index is 0, equal to
the initialized `idx_old`, and the driver picks index 2 instead. -/
theorem c10_first_iteration_dedup_witness :
    (initMember [[9]] [9]).idxOld = [0] ∧
    regularPick [0, 1, 2, 3] (initMember [[9]] [9]).idxOld = [(argsortPy [0, 1, 2, 3]).getD 2 0] ∧
    (argsortPy [0, 1, 2, 3]).getD 2 0 ≠ 0 ∧
    ([(0 : Int), 1, 2, 3] : List Int).getD 0 0 <
      ([(0 : Int), 1, 2, 3] : List Int).getD ((argsortPy [0, 1, 2, 3]).getD 2 0) 0 :=
  c10_first_iteration_dedup [[9]] [9] [0, 1, 2, 3] (by decide) (by decide) (by decide)

/-- C1 (counterexample): in the spec's end-to-end scenario (3 seeds,
`nregular = 5`, `memory = 5`, `forward = 3`, `activations = 2`) the run
completes both activations, yet the final Observation History has 24 entries,
not `3 + 5 + 3 + 3 = 14`: each completed activation also appends its `memory`
LHS seed points to the history. -/
theorem c1_scenario_counterexample :
    (runMember cfgScen lhsD acAsc seedsScen sfXScen).map (fun s => s.X.length) = .ok 24 ∧
      (24 : Nat) ≠ 3 + 5 + 2 * 3 := by
  refine ⟨by rfl, by decide⟩

/-- C1 (amended: each completed activation contributes `memory + forward`
entries, not `forward`): for every run with at least three seed points, a
score oracle returning one score per scored point, and a selector honouring
the Space-Filling contract, if the run completes with every forward pick of
size one then the final history length is
`seeds + nregular + activations * (memory + forward)` — in the spec scenario
`3 + 5 + 2 * (5 + 3) = 24`. -/
theorem c1_history_length (cfg : Config) (lhs : Selector) (ac : AcqOracle)
    (seeds : List Point) (sfX : List Int)
    (hac : ∀ n sc fx ffx st, (ac n sc fx ffx st).length = sc.length)
    (hlhs : ∀ ps k, k ≤ ps.length → (lhs ps k).length = k)
    (hseeds : 3 ≤ seeds.length)
    (hok : runOk (runMember cfg lhs ac seeds sfX) = true) :
    (runMember cfg lhs ac seeds sfX).map (fun s => s.X.length) =
      .ok (seeds.length + cfg.nregular + cfg.activations * (cfg.memory + cfg.forward)) := by
  rw [runMember_cases] at hok ⊢
  cases hres : actLoop cfg lhs ac 0 cfg.activations
      (setTraceFromHistory (regularLoop cfg ac (initMember seeds sfX))) with
  | error e =>
    rw [hres] at hok
    simp [runOk, Except.map] at hok
  | ok s' =>
    rw [hres] at hok
    have hok' : s'.okPicks = true := hok
    obtain ⟨-, hlen⟩ :=
      actLoop_ok_length cfg lhs ac hlhs cfg.activations 0 _ s' hres hok'
    have hreg : (regularLoop cfg ac (initMember seeds sfX)).X.length =
        seeds.length + cfg.nregular :=
      regularLoop_length cfg ac (initMember seeds sfX) hac hseeds
    rw [setTraceFromHistory_X, hreg] at hlen
    show Except.ok s'.X.length = _
    rw [hlen]

/-- C1 (witness): the amended count evaluated on the end-to-end scenario
gives `3 + 5 + 2 * (5 + 3) = 24`. -/
theorem c1_history_length_witness :
    (runMember cfgScen lhsD acAsc seedsScen sfXScen).map (fun s => s.X.length) =
      .ok (seedsScen.length + cfgScen.nregular +
        cfgScen.activations * (cfgScen.memory + cfgScen.forward)) :=
  c1_history_length cfgScen lhsD acAsc seedsScen sfXScen
    (fun n sc fx ffx st => by
      show ((List.range sc.length).map Int.ofNat).length = sc.length
      rw [List.length_map, List.length_range])
    (fun ps k hk => by
      show ((List.range ps.length).take k).length = k
      rw [List.length_take, List.length_range]
      omega)
    (by decide)
    (by rfl)

/-- C2: exhaustion inside a zoom activation aborts the whole multi-member
run.  With two ensemble members and a first member that exhausts, the
`except` handler's `format_exc(e)` call (which hands the exception object to
`traceback`'s integer `limit` parameter) raises `TypeError`, so `optimize`
terminates with that error instead of continuing to the second member and
returning an aggregate. -/
theorem c2_exhaustion_aborts_run :
    optimize cfgEx2 lhsD acAsc seedsEx sfXEx = .error PyErr.typeError := by
  rfl

/-- C3 (counterexample): with scores `[0, 1, 2, 3]` and previous pick `[0]`,
the driver's fallback selects index 2 — the index with the *third*-lowest
acquisition score — although the second-lowest score sits at index 1. -/
theorem c3_fallback_counterexample :
    regularPick [0, 1, 2, 3] [0] = [2] ∧ (argsortPy [0, 1, 2, 3]).getD 1 0 = 1 ∧
      ([2] : List Nat) ≠ [1] := by
  decide

/-- C3 (amended: the fallback goes to the *third*-lowest score, skipping the
second-lowest, because the retry slice is `argsort[j+1 : batch+j+1]` with
`j = 1`): in a regular-phase step with at least three tie-free scores whose
top pick collides with the previous pick, the appended pair is
`(dataset_X[i], dataset_fX[i])` for the index `i` with exactly two scores
strictly below it. -/
theorem c3_fallback_third_best (cfg : Config) (ac : AcqOracle) (n : Nat) (s : MemberState)
    (hnd : (ac n s.X s.X s.fX s).Nodup)
    (hlen : 3 ≤ (ac n s.X s.X s.fX s).length)
    (hcol : (argsortPy (ac n s.X s.X s.fX s)).take 1 = s.idxOld) :
    ((List.range (ac n s.X s.X s.fX s).length).filter fun j =>
        decide ((ac n s.X s.X s.fX s).getD j 0 <
          (ac n s.X s.X s.fX s).getD
            ((argsortPy (ac n s.X s.X s.fX s)).getD 2 0) 0)).length = 2 ∧
    (regularStep cfg ac n s).X =
      s.X ++ [cfg.dsX.getD ((argsortPy (ac n s.X s.X s.fX s)).getD 2 0) []] ∧
    (regularStep cfg ac n s).fX =
      s.fX ++ [cfg.dsfX.getD ((argsortPy (ac n s.X s.X s.fX s)).getD 2 0) 0] := by
  refine ⟨countBelow_argsort _ hnd 2 (by omega), ?_, ?_⟩
  all_goals
    simp only [regularStep, regularPick]
    rw [if_pos hcol, drop_two_take_one_nat _ (by rw [argsortPy_length]; omega)]
    simp

/-- C3 (witness): the amended fallback evaluated at the constant score
vector `[0, 1, 2, 3]` with colliding top pick: index 2 is appended, and two
scores lie strictly below score 2. -/
theorem c3_fallback_third_best_witness :
    ((List.range (acConst 0 sSmall.X sSmall.X sSmall.fX sSmall).length).filter fun j =>
        decide ((acConst 0 sSmall.X sSmall.X sSmall.fX sSmall).getD j 0 <
          (acConst 0 sSmall.X sSmall.X sSmall.fX sSmall).getD
            ((argsortPy (acConst 0 sSmall.X sSmall.X sSmall.fX sSmall)).getD 2 0) 0)).length = 2 ∧
    (regularStep cfgSmall acConst 0 sSmall).X =
      sSmall.X ++ [cfgSmall.dsX.getD
        ((argsortPy (acConst 0 sSmall.X sSmall.X sSmall.fX sSmall)).getD 2 0) []] ∧
    (regularStep cfgSmall acConst 0 sSmall).fX =
      sSmall.fX ++ [cfgSmall.dsfX.getD
        ((argsortPy (acConst 0 sSmall.X sSmall.X sSmall.fX sSmall)).getD 2 0) 0] :=
  c3_fallback_third_best cfgSmall acConst 0 sSmall (by decide) (by decide) (by decide)

/-- C4: a forward step of a zoom activation appends a point of the filtered
pool together with `dataset_fX[idx]` for the *pool-relative* position `idx`,
which is another point's label whenever the pool is offset in the dataset.
In the label-mismatch scenario the activation appends the point `[7]` with
label 30, while the Candidate Dataset's true label of `[7]` is 40. -/
theorem c4_forward_label_mismatch :
    ((activate_zombi cfgMis lhsD acAsc 0 sMis).2).map
        (fun r => (r.X.getD 2 [], r.fX.getD 2 0)) = .ok ([7], 30) ∧
    cfgMis.dsfX.getD (cfgMis.dsX.findIdx fun p => p == [7]) 0 = 40 ∧ (30 : Int) ≠ 40 := by
  refine ⟨by rfl, by rfl, by decide⟩

/-- C5: in the exhaustion scenario the filtered pool has exactly
`memory + forward - 1 = 3` points, `activate_zombi` raises the exhaustion
signal after having appended the bounding box `([0], [10])` to the bound
trajectory — but the ensemble run then terminates with the handler's
`TypeError` instead of continuing. -/
theorem c5_exhaustion_condition_and_abort :
    (find_indices_within_bounds cfgEx.dsX [0] [10]).length =
      cfgEx.memory + cfgEx.forward - 1 ∧
    (activate_zombi cfgEx lhsD acAsc 0 sEx).2 = .error PyErr.outOfPoints ∧
    (activate_zombi cfgEx lhsD acAsc 0 sEx).1 = ([[0]], [[10]]) ∧
    runMember cfgEx lhsD acAsc seedsEx sfXEx = .error PyErr.typeError := by
  refine ⟨by rfl, by rfl, by rfl, by rfl⟩

/-- C6: the forward loop's membership test is numpy's `in`
(`(X_new == p).any()`), which is satisfied by *any shared coordinate*, not
exact point equality.  On the two-dimensional pool, the best-scoring
candidate `[0, 1]` is not an element of the local set `[[0, 0]]`, yet the
step skips it (it shares the coordinate 0 in dimension 0) and appends the
worse-scoring `[5, 5]` instead. -/
theorem c6_numpy_membership_exclusion :
    (forwardStep cfgTwoD poolTwoD acAsc ctxTwoD 0 tTwoD).X = [[0, 0], [5, 5]] ∧
    ([0, 1] : Point) ∉ tTwoD.X ∧
    numpyIn [0, 1] tTwoD.X = true ∧
    (acAsc 0 poolTwoD tTwoD.X tTwoD.fX ctxTwoD).getD 0 0 <
      (acAsc 0 poolTwoD tTwoD.X tTwoD.fX ctxTwoD).getD 1 0 ∧
    poolTwoD.getD 0 [] = [0, 1] := by
  decide

end ZoMBIDiscrete
